import Mathlib

/-!
Shallow embedding of `dayflow/core/html_to_markdown.py`.

Strings are modelled as `List Char`; Python's parser-callback class
`HTMLToMarkdownConverter` becomes an explicit state record plus three handler
functions (`handle_starttag`, `handle_endtag`, `handle_data`) driven by a
generic start/end/text event stream.  Whitespace classes are modelled at ASCII
fidelity (the six ASCII characters matched by Python's `\s` and stripped by
`str.strip`).
-/

namespace Dayflow

/-- The six ASCII whitespace characters recognised by Python's `\s`,
`str.strip`, `str.rstrip` (the embedding restricts to the ASCII range). -/
def pyWs (c : Char) : Bool :=
  c = ' ' || c = '\t' || c = '\n' || c = '\r' || c = '\x0b' || c = '\x0c'

/-- Python `str.lstrip()`. -/
def lstripPy (s : List Char) : List Char := s.dropWhile pyWs

/-- Python `str.rstrip()`. -/
def rstripPy (s : List Char) : List Char := (s.reverse.dropWhile pyWs).reverse

/-- Python `str.strip()`. -/
def stripPy (s : List Char) : List Char := lstripPy (rstripPy s)

/-- Helper for `re.sub(r"\s+", " ", s)`: the flag records whether the previous
character belonged to a whitespace run whose single space was already emitted. -/
def collapseWsAux : Bool → List Char → List Char
  | _, [] => []
  | b, c :: cs =>
    if pyWs c then
      if b then collapseWsAux true cs else ' ' :: collapseWsAux true cs
    else c :: collapseWsAux false cs

/-- `re.sub(r"\s+", " ", s)`: every maximal whitespace run becomes one space. -/
def collapseWs (s : List Char) : List Char := collapseWsAux false s

/-- `s.split("\n")` on character lists; never returns `[]`. -/
def splitNl : List Char → List (List Char)
  | [] => [[]]
  | c :: cs =>
    match splitNl cs with
    | [] => [[c]]
    | l :: ls => if c = '\n' then [] :: l :: ls else (c :: l) :: ls

/-- `"\n".join(ls)`: the pieces interleaved with single newlines. -/
def joinNl : List (List Char) → List Char
  | [] => []
  | [l] => l
  | l :: l2 :: ls => l ++ '\n' :: joinNl (l2 :: ls)

/-- `"\n".join(line.rstrip() for line in s.split("\n"))`. -/
def rtrimLines (s : List Char) : List Char := joinNl ((splitNl s).map rstripPy)

/-- Helper for `re.sub(r"\n{3,}", "\n\n", s)`: `n` counts pending newlines of
the current run; a maximal run of `n` newlines is emitted as `min n 2`
newlines (runs of one or two are kept, longer runs become exactly two). -/
def collapseNlAux : Nat → List Char → List Char
  | n, [] => List.replicate (min n 2) '\n'
  | n, c :: cs =>
    if c = '\n' then collapseNlAux (n + 1) cs
    else List.replicate (min n 2) '\n' ++ c :: collapseNlAux 0 cs

/-- `re.sub(r"\n{3,}", "\n\n", s)`. -/
def collapseNl (s : List Char) : List Char := collapseNlAux 0 s

/-- The body of `HTMLToMarkdownConverter.get_markdown` after the join: right
trim each line, collapse runs of three or more newlines to two, strip. -/
def postprocess (s : List Char) : List Char := stripPy (collapseNl (rtrimLines s))

/-- The mutable instance fields of `HTMLToMarkdownConverter`. -/
structure ConvState where
  output : List (List Char)
  current_tag : Option String
  list_stack : List String
  link_href : Option (List Char)
  in_pre : Bool
  in_code : Bool
  skip_content : Bool
  style_tags : Int
  deriving Repr, DecidableEq

/-- `HTMLToMarkdownConverter.__init__`. -/
def initState : ConvState :=
  { output := [], current_tag := none, list_stack := [], link_href := none,
    in_pre := false, in_code := false, skip_content := false, style_tags := 0 }

/-- `self.output.append(f)`. -/
def appendFrag (st : ConvState) (f : List Char) : ConvState :=
  { st with output := st.output ++ [f] }

/-- The blank-line-ensuring block shared by the `p` and `h1`..`h6` branches of
`handle_starttag` (lines 38-44 and 49-54 of the source). -/
def ensureBlank (st : ConvState) : ConvState :=
  let current := st.output.flatten
  if current ≠ [] ∧ ¬ (['\n', '\n'].isSuffixOf current) then
    if ['\n'].isSuffixOf current then appendFrag st (['\n'])
    else appendFrag st (['\n', '\n'])
  else st

/-- `dict(attrs).get("href", "")`: last binding of a duplicated key wins, a
valueless attribute yields Python `None`, an absent key yields `""`. -/
def dictGetHref (attrs : List (String × Option (List Char))) : Option (List Char) :=
  match (attrs.reverse.find? (fun p => p.1 = "href")) with
  | none => some []
  | some p => p.2

/-- `HTMLToMarkdownConverter.handle_starttag`. -/
def handle_starttag (st : ConvState) (tag : String)
    (attrs : List (String × Option (List Char))) : ConvState :=
  let st := { st with current_tag := some tag }
  if tag = "style" ∨ tag = "script" then
    { st with skip_content := true, style_tags := st.style_tags + 1 }
  else if st.skip_content then st
  else if tag = "p" then ensureBlank st
  else if tag = "h1" ∨ tag = "h2" ∨ tag = "h3" ∨ tag = "h4" ∨ tag = "h5" ∨ tag = "h6" then
    let level : Nat :=
      if tag = "h1" then 1 else if tag = "h2" then 2 else if tag = "h3" then 3
      else if tag = "h4" then 4 else if tag = "h5" then 5 else 6
    appendFrag (ensureBlank st) (List.replicate level '#' ++ [' '])
  else if tag = "b" ∨ tag = "strong" then appendFrag st (("**").toList)
  else if tag = "i" ∨ tag = "em" then appendFrag st (("*").toList)
  else if tag = "a" then
    appendFrag { st with link_href := dictGetHref attrs } (("[").toList)
  else if tag = "ul" then
    let st := { st with list_stack := st.list_stack ++ [("ul")] }
    if st.output ≠ [] ∧ st.output.getLast? ≠ some (['\n']) then appendFrag st (['\n']) else st
  else if tag = "ol" then
    let st := { st with list_stack := st.list_stack ++ [("ol")] }
    if st.output ≠ [] ∧ st.output.getLast? ≠ some (['\n']) then appendFrag st (['\n']) else st
  else if tag = "li" then
    let indent := List.replicate (2 * (st.list_stack.length - 1)) ' '
    if st.list_stack ≠ [] ∧ st.list_stack.getLast? = some ("ul") then
      appendFrag st (indent ++ ("- ").toList)
    else if st.list_stack ≠ [] ∧ st.list_stack.getLast? = some ("ol") then
      appendFrag st (indent ++ ("1. ").toList)
    else st
  else if tag = "br" then appendFrag st (['\n'])
  else if tag = "hr" then
    let st :=
      if st.output ≠ [] ∧ st.output.getLast? ≠ some (['\n']) then appendFrag st (['\n']) else st
    appendFrag st (("---\n").toList)
  else if tag = "code" then appendFrag { st with in_code := true } (("`").toList)
  else if tag = "pre" then
    let st := { st with in_pre := true }
    let st :=
      if st.output ≠ [] ∧ st.output.getLast? ≠ some (['\n', '\n']) then
        appendFrag st (['\n', '\n'])
      else st
    appendFrag st (("```\n").toList)
  else if tag = "blockquote" then
    let st :=
      if st.output ≠ [] ∧ st.output.getLast? ≠ some (['\n']) then appendFrag st (['\n']) else st
    appendFrag st (("> ").toList)
  else if tag = "table" then
    if st.output ≠ [] ∧ st.output.getLast? ≠ some (['\n', '\n']) then
      appendFrag st (['\n', '\n'])
    else st
  else if tag = "tr" then
    if st.output ≠ [] ∧ st.output.getLast? ≠ some (['\n']) then appendFrag st (['\n']) else st
  else if tag = "td" ∨ tag = "th" then appendFrag st (("| ").toList)
  else st

/-- Python string interpolation of an optional string: `None` prints as "None". -/
def linkRepr : Option (List Char) → List Char
  | none => ("None").toList
  | some s => s

/-- `HTMLToMarkdownConverter.handle_endtag`. -/
def handle_endtag (st : ConvState) (tag : String) : ConvState :=
  if tag = "style" ∨ tag = "script" then
    let n := max 0 (st.style_tags - 1)
    { st with style_tags := n, skip_content := if n = 0 then false else st.skip_content }
  else if st.skip_content then st
  else if tag = "b" ∨ tag = "strong" then appendFrag st (("**").toList)
  else if tag = "i" ∨ tag = "em" then appendFrag st (("*").toList)
  else if tag = "a" then
    { appendFrag st (("](").toList ++ linkRepr st.link_href ++ [')']) with link_href := none }
  else if tag = "ul" ∨ tag = "ol" then
    let st :=
      if st.list_stack ≠ [] then { st with list_stack := st.list_stack.dropLast } else st
    if st.output ≠ [] ∧ st.output.getLast? ≠ some (['\n']) then appendFrag st (['\n']) else st
  else if tag = "li" then
    if st.output ≠ [] ∧ st.output.getLast? ≠ some (['\n']) then appendFrag st (['\n']) else st
  else if tag = "p" ∨ tag = "h1" ∨ tag = "h2" ∨ tag = "h3" ∨ tag = "h4" ∨ tag = "h5" ∨ tag = "h6" then
    if st.output ≠ [] ∧ st.output.getLast? ≠ some (['\n']) then appendFrag st (['\n']) else st
  else if tag = "code" then appendFrag { st with in_code := false } (("`").toList)
  else if tag = "pre" then
    let st := { st with in_pre := false }
    let st :=
      if st.output ≠ [] ∧ st.output.getLast? ≠ some (['\n']) then appendFrag st (['\n']) else st
    appendFrag st (("```\n").toList)
  else if tag = "blockquote" then
    if st.output ≠ [] ∧ st.output.getLast? ≠ some (['\n']) then appendFrag st (['\n']) else st
  else if tag = "td" ∨ tag = "th" then appendFrag st ([' '])
  else if tag = "tr" then
    let st := appendFrag st (['|'])
    if st.output ≠ [] ∧ st.output.getLast? ≠ some (['\n']) then appendFrag st (['\n']) else st
  else st

/-- `HTMLToMarkdownConverter.handle_data`. -/
def handle_data (st : ConvState) (data : List Char) : ConvState :=
  if st.skip_content then st
  else
    let data :=
      if ¬ st.in_pre ∧ ¬ st.in_code then
        let d := collapseWs data
        if st.output ≠ [] ∧
            (st.output.getLast? = some (['\n']) ∨ st.output.getLast? = some (['\n', '\n'])) then
          lstripPy d
        else d
      else data
    appendFrag st data

/-- `HTMLToMarkdownConverter.get_markdown`. -/
def get_markdown (st : ConvState) : List Char := postprocess st.output.flatten

/-- One parser callback event: tag open, tag close, or a text chunk. -/
inductive HEvent where
  | start (tag : String) (attrs : List (String × Option (List Char)))
  | stop (tag : String)
  | data (s : List Char)
  deriving Repr, DecidableEq

/-- Dispatch one event to the matching handler. -/
def processEvent (st : ConvState) : HEvent → ConvState
  | .start tag attrs => handle_starttag st tag attrs
  | .stop tag => handle_endtag st tag
  | .data s => handle_data st s

/-- Feed a whole event stream to a freshly-initialised converter. -/
def processEvents (es : List HEvent) : ConvState :=
  es.foldl processEvent initState

/-- The skip-region invariant: the counter is non-negative and `skip_content`
holds exactly when the counter is positive. -/
def StyleInv (st : ConvState) : Prop :=
  0 ≤ st.style_tags ∧ (st.skip_content = true ↔ 0 < st.style_tags)

lemma starttag_style_fields (st : ConvState) (tag : String)
    (attrs : List (String × Option (List Char)))
    (h : ¬(tag = "style" ∨ tag = "script")) :
    (handle_starttag st tag attrs).style_tags = st.style_tags ∧
      (handle_starttag st tag attrs).skip_content = st.skip_content := by
  unfold handle_starttag ensureBlank appendFrag
  rw [if_neg h]
  constructor <;>
    simp only [apply_ite ConvState.style_tags, apply_ite ConvState.skip_content, ite_self]

lemma endtag_style_fields (st : ConvState) (tag : String)
    (h : ¬(tag = "style" ∨ tag = "script")) :
    (handle_endtag st tag).style_tags = st.style_tags ∧
      (handle_endtag st tag).skip_content = st.skip_content := by
  unfold handle_endtag appendFrag
  rw [if_neg h]
  constructor <;>
    simp only [apply_ite ConvState.style_tags, apply_ite ConvState.skip_content, ite_self]

lemma data_style_fields (st : ConvState) (d : List Char) :
    (handle_data st d).style_tags = st.style_tags ∧
      (handle_data st d).skip_content = st.skip_content := by
  unfold handle_data appendFrag
  split_ifs <;> exact ⟨rfl, rfl⟩

lemma styleInv_start (st : ConvState) (tag : String)
    (attrs : List (String × Option (List Char))) (h : StyleInv st) :
    StyleInv (handle_starttag st tag attrs) := by
  obtain ⟨h0, hiff⟩ := h
  by_cases htag : tag = "style" ∨ tag = "script"
  · unfold handle_starttag
    rw [if_pos htag]
    refine And.intro ?_ ?_
    · show (0 : Int) ≤ st.style_tags + 1
      omega
    · show (true = true) ↔ (0 < st.style_tags + 1)
      exact ⟨fun _ => by omega, fun _ => rfl⟩
  · obtain ⟨hs, hk⟩ := starttag_style_fields st tag attrs htag
    exact ⟨by rw [hs]; exact h0, by rw [hs, hk]; exact hiff⟩

lemma styleInv_stop (st : ConvState) (tag : String) (h : StyleInv st) :
    StyleInv (handle_endtag st tag) := by
  obtain ⟨h0, hiff⟩ := h
  by_cases htag : tag = "style" ∨ tag = "script"
  · unfold handle_endtag
    rw [if_pos htag]
    refine And.intro ?_ ?_
    · show (0 : Int) ≤ max 0 (st.style_tags - 1)
      exact le_max_left _ _
    · show (if max 0 (st.style_tags - 1) = 0 then false else st.skip_content) = true ↔
        0 < max 0 (st.style_tags - 1)
      by_cases hz : max 0 (st.style_tags - 1) = 0
      · rw [if_pos hz, hz]
        simp
      · rw [if_neg hz]
        have h1 : 0 < max 0 (st.style_tags - 1) :=
          lt_of_le_of_ne (le_max_left _ _) (Ne.symm hz)
        have h2 : 0 < st.style_tags := by
          by_contra hc
          push_neg at hc
          have hy : st.style_tags - 1 ≤ 0 := by omega
          rw [max_eq_left hy] at hz
          exact hz rfl
        exact ⟨fun _ => h1, fun _ => hiff.mpr h2⟩
  · obtain ⟨hs, hk⟩ := endtag_style_fields st tag htag
    exact ⟨by rw [hs]; exact h0, by rw [hs, hk]; exact hiff⟩

lemma styleInv_processEvent (st : ConvState) (e : HEvent) (h : StyleInv st) :
    StyleInv (processEvent st e) := by
  cases e with
  | start tag attrs => exact styleInv_start st tag attrs h
  | stop tag => exact styleInv_stop st tag h
  | data d =>
    obtain ⟨h0, hiff⟩ := h
    obtain ⟨hs, hk⟩ := data_style_fields st d
    exact ⟨by rw [show (processEvent st (HEvent.data d)).style_tags =
        (handle_data st d).style_tags from rfl, hs]; exact h0,
      by rw [show (processEvent st (HEvent.data d)).skip_content =
        (handle_data st d).skip_content from rfl,
        show (processEvent st (HEvent.data d)).style_tags =
        (handle_data st d).style_tags from rfl, hs, hk]; exact hiff⟩

lemma styleInv_foldl (es : List HEvent) (st : ConvState) (h : StyleInv st) :
    StyleInv (es.foldl processEvent st) := by
  induction es generalizing st with
  | nil => exact h
  | cons e es ih => exact ih _ (styleInv_processEvent st e h)

lemma styleInv_processEvents (es : List HEvent) : StyleInv (processEvents es) :=
  styleInv_foldl es initState ⟨le_refl 0, by simp [initState]⟩

lemma handle_data_of_skip (st : ConvState) (d : List Char)
    (h : st.skip_content = true) : handle_data st d = st := by
  simp [handle_data, h]

/-- C2: text content that arrives while the converter is inside a style/script
region (skip counter positive) is discarded entirely — processing the whole
stream gives the same state, hence the same output, as if the text event were
absent — and the skip counter never becomes negative, for every event stream,
any nesting depth, stray closing tags and unterminated regions included. -/
theorem style_script_content_never_emitted :
    (∀ es : List HEvent, 0 ≤ (processEvents es).style_tags) ∧
    (∀ (es1 : List HEvent) (d : List Char) (es2 : List HEvent),
      0 < (processEvents es1).style_tags →
      processEvents (es1 ++ HEvent.data d :: es2) = processEvents (es1 ++ es2)) := by
  constructor
  · intro es
    exact (styleInv_processEvents es).1
  · intro es1 d es2 h
    have hskip : (processEvents es1).skip_content = true :=
      (styleInv_processEvents es1).2.mpr h
    show (es1 ++ HEvent.data d :: es2).foldl processEvent initState =
      (es1 ++ es2).foldl processEvent initState
    rw [List.foldl_append, List.foldl_append, List.foldl_cons]
    have hd : processEvent (es1.foldl processEvent initState) (HEvent.data d) =
        es1.foldl processEvent initState :=
      handle_data_of_skip _ d hskip
    rw [hd]

/-- Witness for C2 at a concrete stream: one opened (unterminated) style region
followed by a text chunk, which leaves no trace on the converter state. -/
theorem style_script_content_never_emitted_witness :
    0 < (processEvents [HEvent.start ("style") []]).style_tags ∧
    processEvents ([HEvent.start ("style") []] ++ HEvent.data (("secret").toList) :: []) =
      processEvents ([HEvent.start ("style") []] ++ []) :=
  ⟨by decide,
    style_script_content_never_emitted.2 [HEvent.start ("style") []]
      (("secret").toList) [] (by decide)⟩

/-- C8: with a non-empty list stack of depth `d` and skipping off, an opening
`li` appends exactly `2 * (d - 1)` spaces of indent followed by a dash marker
when the innermost list is unordered, or the literal ordinal when ordered. -/
theorem li_indent_by_depth (st : ConvState) (attrs : List (String × Option (List Char)))
    (hskip : st.skip_content = false) (hne : st.list_stack ≠ []) :
    (st.list_stack.getLast? = some ("ul") →
      (handle_starttag st ("li") attrs).output =
        st.output ++ [List.replicate (2 * (st.list_stack.length - 1)) ' ' ++ ("- ").toList]) ∧
    (st.list_stack.getLast? = some ("ol") →
      (handle_starttag st ("li") attrs).output =
        st.output ++ [List.replicate (2 * (st.list_stack.length - 1)) ' ' ++ ("1. ").toList]) := by
  constructor <;> intro h <;>
    simp only [handle_starttag, appendFrag, hskip, hne, h, ne_eq, not_false_eq_true,
      and_self, and_true, and_false, if_true, if_false, Option.some.injEq,
      String.reduceEq, Bool.false_eq_true, reduceIte, or_self, or_false, false_or]

/-- Witness for C8: an `li` opening at depth 2 inside two unordered lists gets
two spaces of indent and a dash marker. -/
theorem li_indent_by_depth_witness :
    (handle_starttag { initState with list_stack := [("ul"), ("ul")] } ("li") []).output =
      { initState with list_stack := [("ul"), ("ul")] }.output ++
        [List.replicate
            (2 * ({ initState with list_stack := [("ul"), ("ul")] }.list_stack.length - 1)) ' ' ++
          ("- ").toList] :=
  (li_indent_by_depth { initState with list_stack := [("ul"), ("ul")] } [] (by decide)
      (by decide)).1 (by decide)

/-- C7 counterexample: a stray `</b>` with no matching open tag is not silent —
it appends `**` to the output buffer, so the output after the stray end tag
differs from the output without it. -/
theorem stray_endtag_emits_output :
    (processEvents [HEvent.data (("a").toList), HEvent.stop ("b")]).output ≠
      (processEvents [HEvent.data (("a").toList)]).output := by
  decide

/-- C7 amended: a stray end tag raises no exception and never corrupts the
parser state — an end tag processed with an empty `list_stack` (the relevant
stack for `ul`/`ol`) leaves that stack empty rather than popping it — but it
is not output-silent: it may append formatting text to the buffer (for
instance `**` for a stray `</b>`, as the counterexample shows). -/
theorem stray_endtag_no_state_corruption (st : ConvState) (tag : String)
    (h : st.list_stack = []) :
    (handle_endtag st tag).list_stack = [] := by
  unfold handle_endtag appendFrag
  simp only [apply_ite ConvState.list_stack, h, ne_eq, not_true_eq_false, false_and,
    List.dropLast_nil, if_false, ite_self, not_false_eq_true, and_true, and_false,
    if_true]

/-- Witness for C7 amended: a stray `</ul>` on a fresh converter leaves the
list stack empty. -/
theorem stray_endtag_no_state_corruption_witness :
    (handle_endtag initState ("ul")).list_stack = [] :=
  stray_endtag_no_state_corruption initState ("ul") (by decide)

/-! ### Regular-expression machinery

Each regular expression of the source is modelled as an anchored matcher:
given a suffix of the subject it returns the number of characters the match
starting exactly there consumes, or `none`.  The patterns in this source use
greedy repetition only over character classes that are disjoint from what can
follow, plus one genuinely backtracking piece (`[^\s]*` in the Zoom pattern)
which is modelled by an explicit longest-first search, so every matcher is a
deterministic function. -/

/-- An anchored matcher: length consumed by a match starting here, if any. -/
def Matcher : Type := List Char → Option Nat

/-- Python `\d` at ASCII fidelity. -/
def isDigitB (c : Char) : Bool := c.isDigit

/-- The class `[^"\s<>]` of the URL patterns. -/
def urlOk (c : Char) : Bool := !(c = '"' || pyWs c || c = '<' || c = '>')

/-- The class `[^\s]` of the Zoom pattern. -/
def nonWsB (c : Char) : Bool := !pyWs c

/-- Match one exact character. -/
def mChar (a : Char) : Matcher := fun s =>
  match s with
  | [] => none
  | c :: _ => if c = a then some 1 else none

/-- Match one character of a class. -/
def mClass (p : Char → Bool) : Matcher := fun s =>
  match s with
  | [] => none
  | c :: _ => if p c then some 1 else none

/-- Case-sensitive literal comparison against the front of the subject. -/
def litCS : List Char → List Char → Bool
  | [], _ => true
  | _ :: _, [] => false
  | a :: w, c :: s => a = c && litCS w s

/-- Case-sensitive literal matcher. -/
def mLitCS (w : List Char) : Matcher := fun s =>
  if litCS w s then some w.length else none

/-- ASCII-case-insensitive character comparison (`re.IGNORECASE`). -/
def ciEq (a c : Char) : Bool := a.toLower = c.toLower

/-- Case-insensitive literal comparison against the front of the subject. -/
def litCI : List Char → List Char → Bool
  | [], _ => true
  | _ :: _, [] => false
  | a :: w, c :: s => ciEq a c && litCI w s

/-- Case-insensitive literal matcher. -/
def mLitCI (w : List Char) : Matcher := fun s =>
  if litCI w s then some w.length else none

/-- Sequencing of matchers. -/
def mSeq (m1 m2 : Matcher) : Matcher := fun s =>
  match m1 s with
  | none => none
  | some k1 =>
    match m2 (s.drop k1) with
    | none => none
    | some k2 => some (k1 + k2)

/-- Greedy `p*` over a character class whose continuation is disjoint. -/
def mStar (p : Char → Bool) : Matcher := fun s => some (s.takeWhile p).length

/-- Greedy `p+` over a character class whose continuation is disjoint. -/
def mPlus (p : Char → Bool) : Matcher := fun s =>
  let n := (s.takeWhile p).length
  if n = 0 then none else some n

/-- Exactly `n` characters of a class (`p{n}`). -/
def mRep (p : Char → Bool) (n : Nat) : Matcher := fun s =>
  if (s.take n).length = n ∧ (s.take n).all p then some n else none

/-- The pattern `https://teams\.microsoft\.com/l/meetup-join/[^"\s<>]+`. -/
def mTeams : Matcher :=
  mSeq (mLitCS (("https://teams.microsoft.com/l/meetup-join/").toList)) (mPlus urlOk)

/-- The pattern `https://meet\.google\.com/[^"\s<>]+`. -/
def mMeet : Matcher :=
  mSeq (mLitCS (("https://meet.google.com/").toList)) (mPlus urlOk)

/-- Longest-first search for the backtracking point of `[^\s]*zoom\.us/...`:
try letting `[^\s]*` consume `j` characters, largest `j` first. -/
def zoomTry (rest : Matcher) (s : List Char) : Nat → Option Nat
  | 0 =>
    match rest (s.drop 0) with
    | some k => some (0 + k)
    | none => none
  | j + 1 =>
    match rest (s.drop (j + 1)) with
    | some k => some (j + 1 + k)
    | none => zoomTry rest s j

/-- The part `[^\s]*zoom\.us/[^"\s<>]+` after the literal scheme: greedy
`[^\s]*` with backtracking, i.e. the largest whitespace-free skip after which
`zoom.us/` plus at least one URL character matches. -/
def zoomTail : Matcher := fun s =>
  zoomTry (mSeq (mLitCS (("zoom.us/").toList)) (mPlus urlOk)) s
    ((s.takeWhile nonWsB).length)

/-- The pattern `https://[^\s]*zoom\.us/[^"\s<>]+`. -/
def mZoom : Matcher := mSeq (mLitCS (("https://").toList)) zoomTail

/-- `re.search`: scan left to right for the first position with a match;
returns the start index and the consumed length. -/
def reSearchAux (m : Matcher) : List Char → Nat → Option (Nat × Nat)
  | [], i =>
    match m [] with
    | some k => some (i, k)
    | none => none
  | c :: cs, i =>
    match m (c :: cs) with
    | some k => some (i, k)
    | none => reSearchAux m cs (i + 1)

/-- `re.search` from the start of the subject. -/
def reSearch (m : Matcher) (s : List Char) : Option (Nat × Nat) := reSearchAux m s 0

/-- The span of a match inside the subject (`match.group(0)`). -/
def matchSeg (s : List Char) (i k : Nat) : List Char := (s.drop i).take k

/-- `extract_meeting_url`: Teams first, then Zoom, then Google Meet. -/
def extract_meeting_url (s : List Char) : Option (List Char) :=
  if s = [] then none
  else
    match reSearch mTeams s with
    | some (i, k) => some (matchSeg s i k)
    | none =>
      match reSearch mZoom s with
      | some (i, k) => some (matchSeg s i k)
      | none =>
        match reSearch mMeet s with
        | some (i, k) => some (matchSeg s i k)
        | none => none

/-- Characterisation of `re.search`: a hit is a match at its start index, and
no earlier position matches (leftmost semantics). -/
lemma reSearchAux_spec (m : Matcher) :
    ∀ (s : List Char) (i j k : Nat), reSearchAux m s i = some (j, k) →
      ∃ n, j = i + n ∧ m (s.drop n) = some k ∧ ∀ l < n, m (s.drop l) = none := by
  intro s
  induction s with
  | nil =>
    intro i j k h
    unfold reSearchAux at h
    cases hm : m [] with
    | some k' =>
      simp only [hm, Option.some.injEq, Prod.mk.injEq] at h
      obtain ⟨hj, hk⟩ := h
      exact ⟨0, by omega, by rw [List.drop_nil, hm, hk], by omega⟩
    | none => simp [hm] at h
  | cons c cs ih =>
    intro i j k h
    unfold reSearchAux at h
    cases hm : m (c :: cs) with
    | some k' =>
      simp only [hm, Option.some.injEq, Prod.mk.injEq] at h
      obtain ⟨hj, hk⟩ := h
      exact ⟨0, by omega, by rw [List.drop_zero, hm, hk], by omega⟩
    | none =>
      simp only [hm] at h
      obtain ⟨n, hn, hmn, hnone⟩ := ih (i + 1) j k h
      refine ⟨n + 1, by omega, hmn, ?_⟩
      intro l hl
      cases l with
      | zero => exact hm
      | succ l' => exact hnone l' (by omega)

/-- A match span is a contiguous piece of the subject. -/
lemma matchSeg_contiguous (s : List Char) (i k : Nat) : matchSeg s i k <:+: s := by
  refine ⟨s.take i, (s.drop i).drop k, ?_⟩
  rw [List.append_assoc]
  rw [show matchSeg s i k ++ (s.drop i).drop k = s.drop i from
    List.take_append_drop k (s.drop i)]
  exact List.take_append_drop i s

/-- A successful case-sensitive literal comparison pins down the front of the
subject. -/
lemma litCS_eq (w : List Char) : ∀ t, litCS w t = true → t.take w.length = w := by
  induction w with
  | nil => intro t _; rfl
  | cons a w ih =>
    intro t h
    cases t with
    | nil => cases h
    | cons c cs =>
      unfold litCS at h
      simp only [Bool.and_eq_true, decide_eq_true_eq] at h
      obtain ⟨h1, h2⟩ := h
      rw [List.length_cons, List.take_succ_cons, ih cs h2, h1]

/-- Matchers whose consumed span contains no whitespace character. -/
def NoWsConsumed (m : Matcher) : Prop :=
  ∀ t k, m t = some k → ∀ c ∈ t.take k, pyWs c = false

lemma noWs_mLitCS (w : List Char) (hw : ∀ c ∈ w, pyWs c = false) :
    NoWsConsumed (mLitCS w) := by
  intro t k h c hc
  unfold mLitCS at h
  by_cases hl : litCS w t = true
  · rw [if_pos hl] at h
    simp only [Option.some.injEq] at h
    rw [← h, litCS_eq w t hl] at hc
    exact hw c hc
  · rw [if_neg hl] at h; cases h

lemma take_len_takeWhile (p : Char → Bool) :
    ∀ t : List Char, t.take ((t.takeWhile p).length) = t.takeWhile p := by
  intro t
  induction t with
  | nil => rfl
  | cons c cs ih =>
    by_cases hc : p c = true
    · rw [List.takeWhile_cons_of_pos hc, List.length_cons, List.take_succ_cons, ih]
    · rw [List.takeWhile_cons_of_neg hc]
      rfl

lemma noWs_mPlus (p : Char → Bool) (hp : ∀ c, p c = true → pyWs c = false) :
    NoWsConsumed (mPlus p) := by
  intro t k h c hc
  simp only [mPlus] at h
  by_cases hz : ((t.takeWhile p).length) = 0
  · rw [if_pos hz] at h
    cases h
  · rw [if_neg hz] at h
    simp only [Option.some.injEq] at h
    rw [← h, take_len_takeWhile] at hc
    exact hp c (List.mem_takeWhile_imp hc)

lemma noWs_mSeq (m1 m2 : Matcher) (h1 : NoWsConsumed m1) (h2 : NoWsConsumed m2) :
    NoWsConsumed (mSeq m1 m2) := by
  intro t k h c hc
  unfold mSeq at h
  cases hm1 : m1 t with
  | none => simp [hm1] at h
  | some k1 =>
    simp only [hm1] at h
    cases hm2 : m2 (t.drop k1) with
    | none => simp [hm2] at h
    | some k2 =>
      simp only [hm2, Option.some.injEq] at h
      rw [← h, List.take_add] at hc
      rcases List.mem_append.mp hc with hin | hin
      · exact h1 t k1 hm1 c hin
      · exact h2 (t.drop k1) k2 hm2 c hin

/-- Characters skipped by any prefix of a `takeWhile p` run satisfy `p`. -/
lemma mem_take_of_le_takeWhile (p : Char → Bool) (t : List Char) (j : Nat)
    (hj : j ≤ (t.takeWhile p).length) : ∀ c ∈ t.take j, p c = true := by
  intro c hc
  have : t.take j = (t.takeWhile p).take j := by
    conv_rhs => rw [← take_len_takeWhile p t]
    rw [List.take_take, min_eq_left hj]
  rw [this] at hc
  exact List.mem_takeWhile_imp (List.mem_of_mem_take hc)

lemma noWs_zoomTry (rest : Matcher) (hrest : NoWsConsumed rest) (t : List Char) :
    ∀ j, j ≤ (t.takeWhile nonWsB).length → ∀ k, zoomTry rest t j = some k →
      ∀ c ∈ t.take k, pyWs c = false := by
  intro j
  induction j with
  | zero =>
    intro _ k h c hc
    unfold zoomTry at h
    rw [List.drop_zero] at h
    cases hm : rest t with
    | some k' =>
      simp only [hm, Option.some.injEq] at h
      exact hrest t k' hm c (by rw [← h] at hc; simpa using hc)
    | none => simp [hm] at h
  | succ j ih =>
    intro hle k h c hc
    unfold zoomTry at h
    cases hm : rest (t.drop (j + 1)) with
    | some k' =>
      simp only [hm, Option.some.injEq] at h
      rw [← h, List.take_add] at hc
      rcases List.mem_append.mp hc with hin | hin
      · have := mem_take_of_le_takeWhile nonWsB t (j + 1) hle c hin
        unfold nonWsB at this
        simpa using this
      · exact hrest (t.drop (j + 1)) k' hm c hin
    | none =>
      simp only [hm] at h
      exact ih (by omega) k h c hc

lemma urlOk_no_ws : ∀ c, urlOk c = true → pyWs c = false := by
  intro c hc
  unfold urlOk at hc
  cases h2 : pyWs c with
  | false => rfl
  | true => rw [h2] at hc; simp at hc

lemma noWs_zoomTail : NoWsConsumed zoomTail := by
  intro t k h
  exact noWs_zoomTry (mSeq (mLitCS (("zoom.us/").toList)) (mPlus urlOk))
    (noWs_mSeq _ _ (noWs_mLitCS _ (by decide)) (noWs_mPlus urlOk urlOk_no_ws))
    t ((t.takeWhile nonWsB).length) (le_refl _) k h

lemma noWs_mTeams : NoWsConsumed mTeams :=
  noWs_mSeq _ _ (noWs_mLitCS _ (by decide)) (noWs_mPlus urlOk urlOk_no_ws)

lemma noWs_mMeet : NoWsConsumed mMeet :=
  noWs_mSeq _ _ (noWs_mLitCS _ (by decide)) (noWs_mPlus urlOk urlOk_no_ws)

lemma noWs_mZoom : NoWsConsumed mZoom :=
  noWs_mSeq _ _ (noWs_mLitCS _ (by decide)) noWs_zoomTail

/-- A match of `mSeq (mLitCS w) m2` starts with `w`; if `"https://"` starts
`w` it also starts the consumed span. -/
lemma https_starts_mSeq_lit (w : List Char) (m2 : Matcher)
    (hw : (("https://").toList) <+: w) :
    ∀ t k, mSeq (mLitCS w) m2 t = some k → (("https://").toList) <+: t.take k := by
  intro t k h
  unfold mSeq at h
  by_cases hl : litCS w t = true
  · have hm1 : mLitCS w t = some w.length := by unfold mLitCS; rw [if_pos hl]
    simp only [hm1] at h
    cases hm2 : m2 (t.drop w.length) with
    | none => simp [hm2] at h
    | some k2 =>
      simp only [hm2, Option.some.injEq] at h
      rw [← h, List.take_add, litCS_eq w t hl]
      exact hw.trans (List.prefix_append w _)
  · have hm1 : mLitCS w t = none := by unfold mLitCS; rw [if_neg hl]
    simp [hm1] at h

/-- Combined shape facts for a successful provider search. -/
lemma shape_of_search (m : Matcher)
    (hstart : ∀ t k, m t = some k → (("https://").toList) <+: t.take k)
    (hnows : NoWsConsumed m) (s : List Char) (i k : Nat)
    (h : reSearch m s = some (i, k)) :
    matchSeg s i k <:+: s ∧ (("https://").toList) <+: matchSeg s i k ∧
      ∀ c ∈ matchSeg s i k, pyWs c = false := by
  obtain ⟨n, hn, hm, _⟩ := reSearchAux_spec m s 0 i k h
  have hni : n = i := by omega
  subst hni
  exact ⟨matchSeg_contiguous s n k, hstart _ _ hm, fun c hc => hnows _ _ hm c hc⟩

/-- C1: whenever the Teams pattern matches anywhere in the input (at leftmost
start `i`, length `k`), `extract_meeting_url` returns exactly that Teams span —
regardless of any Zoom or Google Meet URL present, even one occurring earlier
in document order — and the span is the first Teams match in document order. -/
theorem extract_prefers_teams (s : List Char) (i k : Nat)
    (h : reSearch mTeams s = some (i, k)) :
    extract_meeting_url s = some (matchSeg s i k) ∧
      mTeams (s.drop i) = some k ∧
      ∀ j < i, mTeams (s.drop j) = none := by
  have hs : s ≠ [] := by
    intro he
    subst he
    rw [show reSearch mTeams [] = none from rfl] at h
    cases h
  obtain ⟨n, hn, hm, hnone⟩ := reSearchAux_spec mTeams s 0 i k h
  have hni : n = i := by omega
  subst hni
  refine ⟨?_, hm, hnone⟩
  unfold extract_meeting_url
  rw [if_neg hs, h]

/-- Witness for C1: the input holds a Zoom URL at index 4 and a Teams URL only
later at index 28; extraction still returns the Teams URL. -/
theorem extract_prefers_teams_witness :
    (reSearch mZoom
        (("see https://zoom.us/j/1 and https://teams.microsoft.com/l/meetup-join/xyz ok").toList)).isSome
        = true ∧
    extract_meeting_url
        (("see https://zoom.us/j/1 and https://teams.microsoft.com/l/meetup-join/xyz ok").toList) =
      some (matchSeg
        (("see https://zoom.us/j/1 and https://teams.microsoft.com/l/meetup-join/xyz ok").toList)
        28 45) :=
  ⟨by decide,
    (extract_prefers_teams
      (("see https://zoom.us/j/1 and https://teams.microsoft.com/l/meetup-join/xyz ok").toList)
      28 45 (by decide)).1⟩

/-- C10 counterexample: the Zoom pattern's `[^\s]*` accepts `"`, `<` and `>`,
so a returned URL can contain `<`: here the extractor returns
`https://<zoom.us/j`, which contains `<`. -/
theorem extract_url_contains_angle :
    extract_meeting_url (("x https://<zoom.us/j ").toList) =
      some (("https://<zoom.us/j").toList) ∧
    '<' ∈ (("https://<zoom.us/j").toList) := by
  constructor
  · decide
  · decide

/-- C10 amended: whenever `extract_meeting_url` returns a URL, it is a
contiguous substring of the input, begins with `https://`, and contains no
whitespace character; it need not be free of `"`, `<`, `>` (the Zoom pattern
admits them between the scheme and `zoom.us/`, as the counterexample shows). -/
theorem extract_url_shape (s u : List Char) (h : extract_meeting_url s = some u) :
    u <:+: s ∧ (("https://").toList) <+: u ∧ ∀ c ∈ u, pyWs c = false := by
  unfold extract_meeting_url at h
  by_cases hs : s = []
  · rw [if_pos hs] at h; cases h
  rw [if_neg hs] at h
  cases ht : reSearch mTeams s with
  | some ik =>
    obtain ⟨i, k⟩ := ik
    rw [ht] at h
    obtain hu := Option.some.injEq .. ▸ h
    rw [← hu]
    exact shape_of_search mTeams
      (https_starts_mSeq_lit _ _ (by decide)) noWs_mTeams s i k ht
  | none =>
    rw [ht] at h
    cases hz : reSearch mZoom s with
    | some ik =>
      obtain ⟨i, k⟩ := ik
      rw [hz] at h
      obtain hu := Option.some.injEq .. ▸ h
      rw [← hu]
      exact shape_of_search mZoom
        (https_starts_mSeq_lit _ _ (by decide)) noWs_mZoom s i k hz
    | none =>
      rw [hz] at h
      cases hg : reSearch mMeet s with
      | some ik =>
        obtain ⟨i, k⟩ := ik
        rw [hg] at h
        obtain hu := Option.some.injEq .. ▸ h
        rw [← hu]
        exact shape_of_search mMeet
          (https_starts_mSeq_lit _ _ (by decide)) noWs_mMeet s i k hg
      | none => rw [hg] at h; cases h

/-- Witness for C10 amended at the spec's Zoom scenario. -/
theorem extract_url_shape_witness :
    (("https://zoom.us/j/555").toList) <:+:
        (("<a href=\"https://zoom.us/j/555\">Join</a>").toList) ∧
      (("https://").toList) <+: (("https://zoom.us/j/555").toList) ∧
      ∀ c ∈ (("https://zoom.us/j/555").toList), pyWs c = false :=
  extract_url_shape (("<a href=\"https://zoom.us/j/555\">Join</a>").toList)
    (("https://zoom.us/j/555").toList) (by decide)

/-! ### Postprocessor idempotence (C3): split/join and strip groundwork -/

lemma splitNl_ne_nil (s : List Char) : splitNl s ≠ [] := by
  cases s with
  | nil => simp [splitNl]
  | cons c cs =>
    unfold splitNl
    cases h : splitNl cs with
    | nil => simp
    | cons l ls => by_cases hc : c = '\n' <;> simp [hc]

lemma joinNl_cons_head (c : Char) (t : List Char) (ts : List (List Char)) :
    joinNl ((c :: t) :: ts) = c :: joinNl (t :: ts) := by
  cases ts <;> simp [joinNl]

lemma no_nl_splitNl (s : List Char) : ∀ l ∈ splitNl s, '\n' ∉ l := by
  induction s with
  | nil =>
    intro l hl
    simp only [splitNl, List.mem_singleton] at hl
    simp [hl]
  | cons c cs ih =>
    intro l hl
    unfold splitNl at hl
    cases h : splitNl cs with
    | nil => exact absurd h (splitNl_ne_nil cs)
    | cons t ts =>
      simp only [h] at hl
      by_cases hc : c = '\n'
      · rw [if_pos hc] at hl
        rcases List.mem_cons.mp hl with rfl | hl2
        · simp
        · exact ih l (h ▸ hl2)
      · rw [if_neg hc] at hl
        rcases List.mem_cons.mp hl with rfl | hl2
        · intro hmem
          rcases List.mem_cons.mp hmem with he | hml
          · exact hc he.symm
          · exact ih t (h ▸ List.mem_cons_self t ts) hml
        · exact ih l (h ▸ List.mem_cons.mpr (Or.inr hl2))

lemma joinNl_splitNl (s : List Char) : joinNl (splitNl s) = s := by
  induction s with
  | nil => rfl
  | cons c cs ih =>
    unfold splitNl
    cases h : splitNl cs with
    | nil => exact absurd h (splitNl_ne_nil cs)
    | cons t ts =>
      simp only [h]
      by_cases hc : c = '\n'
      · rw [if_pos hc, show joinNl ([] :: t :: ts) = '\n' :: joinNl (t :: ts) from by
          simp [joinNl], ← h, ih, hc]
      · rw [if_neg hc, joinNl_cons_head, ← h, ih]

/-- The last character of a list is not whitespace (vacuously so when empty). -/
def LastOk (l : List Char) : Prop := ∀ c, l.getLast? = some c → pyWs c = false

lemma head?_dropWhile (p : Char → Bool) (l : List Char) :
    ∀ c, (l.dropWhile p).head? = some c → p c = false := by
  induction l with
  | nil => intro c h; cases h
  | cons d ds ih =>
    intro c h
    by_cases hd : p d = true
    · rw [List.dropWhile_cons_of_pos hd] at h
      exact ih c h
    · rw [List.dropWhile_cons_of_neg hd] at h
      simp only [List.head?_cons, Option.some.injEq] at h
      rw [← h]
      exact Bool.eq_false_iff.mpr hd

lemma mem_rstrip (l : List Char) (c : Char) (h : c ∈ rstripPy l) : c ∈ l := by
  unfold rstripPy at h
  rw [List.mem_reverse] at h
  have := (List.dropWhile_suffix pyWs (l := l.reverse)).subset h
  rwa [List.mem_reverse] at this

lemma lastOk_rstrip (l : List Char) : LastOk (rstripPy l) := by
  intro c hc
  unfold rstripPy at hc
  rw [List.getLast?_reverse] at hc
  exact head?_dropWhile pyWs l.reverse c hc

lemma rstrip_eq_self (l : List Char) (h : LastOk l) : rstripPy l = l := by
  unfold rstripPy
  cases hr : l.reverse with
  | nil => rw [List.dropWhile_nil, ← hr, List.reverse_reverse]
  | cons c rest =>
    have hc : l.getLast? = some c := by
      rw [← List.head?_reverse, hr, List.head?_cons]
    rw [List.dropWhile_cons_of_neg (by rw [h c hc]; exact Bool.false_ne_true), ← hr,
      List.reverse_reverse]

lemma rstrip_decomp (l : List Char) :
    l = rstripPy l ++ (l.reverse.takeWhile pyWs).reverse ∧
      ∀ c ∈ (l.reverse.takeWhile pyWs).reverse, pyWs c = true := by
  constructor
  · unfold rstripPy
    rw [← List.reverse_append, List.takeWhile_append_dropWhile pyWs l.reverse,
      List.reverse_reverse]
  · intro c hc
    rw [List.mem_reverse] at hc
    exact List.mem_takeWhile_imp hc

lemma rstrip_idem (l : List Char) : rstripPy (rstripPy l) = rstripPy l :=
  rstrip_eq_self _ (lastOk_rstrip l)

lemma rstrip_no_nl (l : List Char) (h : '\n' ∉ l) : '\n' ∉ rstripPy l :=
  fun hc => h (mem_rstrip l '\n' hc)

lemma lstrip_idem (s : List Char) : lstripPy (lstripPy s) = lstripPy s := by
  unfold lstripPy
  cases h : List.dropWhile pyWs s with
  | nil => rw [List.dropWhile_nil]
  | cons c rest =>
    have hc : pyWs c = false := head?_dropWhile pyWs s c (by rw [h, List.head?_cons])
    rw [List.dropWhile_cons_of_neg (by rw [hc]; exact Bool.false_ne_true)]

lemma lastOk_lstrip_rstrip (s : List Char) : LastOk (lstripPy (rstripPy s)) := by
  intro c hc
  unfold lstripPy at hc
  cases hy : List.dropWhile pyWs (rstripPy s) with
  | nil => rw [hy] at hc; cases hc
  | cons d rest =>
    rw [hy] at hc
    have hsuf : (d :: rest) <:+ rstripPy s := hy ▸ List.dropWhile_suffix pyWs
    obtain ⟨pre, hpre⟩ := hsuf
    have : (rstripPy s).getLast? = some c := by
      rw [← hpre, List.getLast?_append_of_ne_nil pre (List.cons_ne_nil d rest), hc]
    exact lastOk_rstrip s c this

lemma strip_idem (s : List Char) : stripPy (stripPy s) = stripPy s := by
  unfold stripPy
  rw [rstrip_eq_self _ (lastOk_lstrip_rstrip s), lstrip_idem]

/-- Does the continuation start with a newline or end here?  (A whitespace
character followed by such a continuation is trailing whitespace.) -/
def nlNext : List Char → Bool
  | [] => true
  | c :: _ => c = '\n'

/-- No line carries trailing whitespace: nowhere does a whitespace character
other than newline sit immediately before a newline or the end of the text. -/
def rtrB : List Char → Bool
  | [] => true
  | c :: cs => !(pyWs c && !(c = '\n') && nlNext cs) && rtrB cs

lemma rtrB_tail {c : Char} {cs : List Char} (h : rtrB (c :: cs) = true) :
    rtrB cs = true := by
  unfold rtrB at h
  rw [Bool.and_eq_true] at h
  exact h.2

lemma rtrB_bad {c : Char} {cs : List Char} (h : rtrB (c :: cs) = true)
    (hws : pyWs c = true) (hnl : c ≠ '\n') : nlNext cs = false := by
  cases hnn : nlNext cs with
  | false => rfl
  | true =>
    unfold rtrB at h
    rw [hws, hnn] at h
    simp [hnl] at h

lemma rtrB_cons_of (c : Char) (cs : List Char) (hr : rtrB cs = true)
    (hok : pyWs c = false ∨ c = '\n' ∨ nlNext cs = false) : rtrB (c :: cs) = true := by
  unfold rtrB
  rw [hr, Bool.and_true, Bool.not_eq_true', Bool.and_eq_false_iff]
  rcases hok with h | h | h
  · exact Or.inl (Bool.and_eq_false_iff.mpr (Or.inl h))
  · exact Or.inl (Bool.and_eq_false_iff.mpr (Or.inr (by simp [h])))
  · exact Or.inr h

lemma nlNext_append (l t : List Char) (h : l ≠ []) : nlNext (l ++ t) = nlNext l := by
  cases l with
  | nil => exact absurd rfl h
  | cons c cs => rfl

lemma rtrB_line_append (l t : List Char) (hnl : '\n' ∉ l) (hlast : LastOk l)
    (ht : rtrB t = true) : rtrB (l ++ t) = true := by
  induction l with
  | nil => exact ht
  | cons c l' ih =>
    cases l' with
    | nil =>
      refine rtrB_cons_of c t ht (Or.inl ?_)
      exact hlast c rfl
    | cons d l'' =>
      have hnl' : '\n' ∉ d :: l'' := fun hm => hnl (List.mem_cons.mpr (Or.inr hm))
      have hlast' : LastOk (d :: l'') := by
        intro e he
        exact hlast e (by rw [List.getLast?_cons_cons]; exact he)
      have ihr := ih hnl' hlast'
      refine rtrB_cons_of c _ ihr (Or.inr (Or.inr ?_))
      have hd : d ≠ '\n' := fun hdq => hnl' (List.mem_cons.mpr (Or.inl hdq.symm))
      simp [List.append_eq, List.cons_append, nlNext, hd]

lemma rtrB_join_of (ls : List (List Char))
    (h : ∀ l ∈ ls, '\n' ∉ l ∧ LastOk l) : rtrB (joinNl ls) = true := by
  induction ls with
  | nil => rfl
  | cons l ls' ih =>
    cases ls' with
    | nil =>
      obtain ⟨hnl, hlast⟩ := h l (List.mem_cons_self l [])
      have : rtrB (l ++ []) = true := rtrB_line_append l [] hnl hlast rfl
      simpa [joinNl] using this
    | cons l2 ls'' =>
      obtain ⟨hnl, hlast⟩ := h l (List.mem_cons_self l _)
      have hrest : rtrB (joinNl (l2 :: ls'')) = true :=
        ih (fun x hx => h x (List.mem_cons.mpr (Or.inr hx)))
      have hnlr : rtrB ('\n' :: joinNl (l2 :: ls'')) = true :=
        rtrB_cons_of '\n' _ hrest (Or.inr (Or.inl rfl))
      exact rtrB_line_append l _ hnl hlast hnlr

lemma splitNl_head_empty_iff (cs : List Char) :
    (splitNl cs).head? = some [] ↔ nlNext cs = true := by
  cases cs with
  | nil => simp [splitNl, nlNext]
  | cons d ds =>
    unfold splitNl
    cases h : splitNl ds with
    | nil => exact absurd h (splitNl_ne_nil ds)
    | cons t ts =>
      simp only [h]
      by_cases hd : d = '\n'
      · rw [if_pos hd]
        simp [nlNext, hd]
      · rw [if_neg hd]
        simp [nlNext, hd]

lemma rtrB_split (s : List Char) (h : rtrB s = true) :
    ∀ l ∈ splitNl s, LastOk l := by
  induction s with
  | nil =>
    intro l hl
    simp only [splitNl, List.mem_singleton] at hl
    subst hl
    intro c hc
    cases hc
  | cons c cs ih =>
    intro l hl
    unfold splitNl at hl
    cases hsp : splitNl cs with
    | nil => exact absurd hsp (splitNl_ne_nil cs)
    | cons t ts =>
      simp only [hsp] at hl
      have ihcs := ih (rtrB_tail h)
      by_cases hc : c = '\n'
      · rw [if_pos hc] at hl
        rcases List.mem_cons.mp hl with rfl | hl2
        · intro e he; cases he
        · exact ihcs l (hsp ▸ hl2)
      · rw [if_neg hc] at hl
        rcases List.mem_cons.mp hl with rfl | hl2
        · intro e he
          cases t with
          | nil =>
            have he2 : c = e := by simpa using he
            subst he2
            by_cases hws : pyWs c = true
            · have hnn : nlNext cs = true := by
                rw [← splitNl_head_empty_iff, hsp]
                rfl
              have := rtrB_bad h hws hc
              rw [hnn] at this
              cases this
            · exact Bool.eq_false_iff.mpr hws
          | cons d t' =>
            rw [List.getLast?_cons_cons] at he
            exact ihcs (d :: t') (hsp ▸ List.mem_cons_self (d :: t') ts) e he
        · exact ihcs l (hsp ▸ List.mem_cons.mpr (Or.inr hl2))

lemma rtrim_fix (s : List Char) (h : rtrB s = true) : rtrimLines s = s := by
  unfold rtrimLines
  rw [List.map_congr_left (fun l hl =>
      show rstripPy l = id l from rstrip_eq_self l (rtrB_split s h l hl)),
    List.map_id, joinNl_splitNl]

lemma rtrB_rtrim (s : List Char) : rtrB (rtrimLines s) = true := by
  unfold rtrimLines
  refine rtrB_join_of _ ?_
  intro x hx
  obtain ⟨l, hl, rfl⟩ := List.mem_map.mp hx
  exact ⟨rstrip_no_nl l (no_nl_splitNl s l hl), lastOk_rstrip l⟩

/-- No run of three or more consecutive newlines anywhere in the text. -/
def nlr : List Char → Bool
  | a :: b :: c :: t => !(a = '\n' && b = '\n' && c = '\n') && nlr (b :: c :: t)
  | _ => true

lemma nlr_tail {c : Char} {t : List Char} (h : nlr (c :: t) = true) : nlr t = true := by
  match t with
  | [] => rfl
  | [b] => rfl
  | b :: c2 :: t' =>
    unfold nlr at h
    rw [Bool.and_eq_true] at h
    exact h.2

lemma nlr_cons_of (c : Char) (t : List Char) (hc : c ≠ '\n') (h : nlr t = true) :
    nlr (c :: t) = true := by
  match t with
  | [] => rfl
  | [b] => rfl
  | b :: c2 :: t' =>
    unfold nlr
    simp [hc, h]

lemma nlr_nl_cons (c : Char) (X : List Char) (hc : c ≠ '\n') (h : nlr (c :: X) = true) :
    nlr ('\n' :: c :: X) = true := by
  cases X with
  | nil => rfl
  | cons x X' =>
    unfold nlr
    simp [hc, h]

lemma nlr_nl_nl_cons (c : Char) (X : List Char) (hc : c ≠ '\n')
    (h : nlr (c :: X) = true) : nlr ('\n' :: '\n' :: c :: X) = true := by
  unfold nlr
  simp [hc, nlr_nl_cons c X hc h]

lemma nlr_append_right : ∀ (a b : List Char), nlr (a ++ b) = true → nlr b = true := by
  intro a
  induction a with
  | nil => intro b h; exact h
  | cons x a' ih => intro b h; exact ih b (nlr_tail h)

lemma nlr_append_left : ∀ (a b : List Char), nlr (a ++ b) = true → nlr a = true := by
  intro a
  induction a with
  | nil => intro b _; rfl
  | cons x a' ih =>
    intro b h
    cases a' with
    | nil => rfl
    | cons y a'' =>
      cases a'' with
      | nil => rfl
      | cons z a''' =>
        simp only [List.cons_append] at h
        simp only [nlr] at h ⊢
        rw [Bool.and_eq_true] at h ⊢
        exact ⟨h.1, ih b h.2⟩

lemma collAux_zero_head (d : Char) (ds : List Char) (hd : d ≠ '\n') :
    collapseNlAux 0 (d :: ds) = d :: collapseNlAux 0 ds := by
  simp only [collapseNlAux]
  simp [hd]

lemma nlr_replicate_min (n : Nat) : nlr (List.replicate (min n 2) '\n') = true := by
  have h : min n 2 = 0 ∨ min n 2 = 1 ∨ min n 2 = 2 := by omega
  rcases h with h | h | h <;> rw [h] <;> rfl

lemma coll_sound : ∀ (s : List Char) (n : Nat), nlr (collapseNlAux n s) = true := by
  intro s
  induction s with
  | nil =>
    intro n
    exact nlr_replicate_min n
  | cons c cs ih =>
    intro n
    unfold collapseNlAux
    by_cases hc : c = '\n'
    · rw [if_pos hc]
      exact ih (n + 1)
    · rw [if_neg hc]
      have hx : nlr (c :: collapseNlAux 0 cs) = true := nlr_cons_of c _ hc (ih 0)
      have h2 : min n 2 = 0 ∨ min n 2 = 1 ∨ min n 2 = 2 := by omega
      rcases h2 with h2 | h2 | h2 <;> rw [h2]
      · simpa using hx
      · simpa using nlr_nl_cons c _ hc hx
      · simpa using nlr_nl_nl_cons c _ hc hx

lemma coll_fix_aux : ∀ (s : List Char) (n : Nat), n ≤ 2 →
    nlr (List.replicate n '\n' ++ s) = true →
    collapseNlAux n s = List.replicate n '\n' ++ s := by
  intro s
  induction s with
  | nil =>
    intro n hn _
    unfold collapseNlAux
    rw [min_eq_left hn, List.append_nil]
  | cons c cs ih =>
    intro n hn h
    unfold collapseNlAux
    by_cases hc : c = '\n'
    · rw [if_pos hc]
      subst hc
      have hrepl : List.replicate n '\n' ++ '\n' :: cs = List.replicate (n + 1) '\n' ++ cs := by
        rw [List.replicate_succ' n '\n', List.append_assoc]
        rfl
      have hn1 : n + 1 ≤ 2 := by
        rcases Nat.lt_or_ge n 2 with h2 | h2
        · omega
        · exfalso
          have hn2 : n = 2 := by omega
          subst hn2
          rw [hrepl] at h
          unfold nlr at h
          simp at h
      rw [ih (n + 1) hn1 (by rw [← hrepl]; exact h), hrepl]
    · rw [if_neg hc, min_eq_left hn]
      have hcs : nlr cs = true := by
        have h1 : nlr (c :: cs) = true :=
          nlr_append_right (List.replicate n '\n') (c :: cs) h
        exact nlr_tail h1
      rw [ih 0 (by omega) (by simpa using hcs)]
      rfl

lemma coll_fix (s : List Char) (h : nlr s = true) : collapseNl s = s := by
  unfold collapseNl
  simpa using coll_fix_aux s 0 (by omega) (by simpa using h)

lemma nlr_dropWhile (p : Char → Bool) (s : List Char) (h : nlr s = true) :
    nlr (s.dropWhile p) = true := by
  induction s with
  | nil => exact h
  | cons c cs ih =>
    by_cases hc : p c = true
    · rw [List.dropWhile_cons_of_pos hc]
      exact ih (nlr_tail h)
    · rw [List.dropWhile_cons_of_neg hc]
      exact h

lemma nlr_rstrip (s : List Char) (h : nlr s = true) : nlr (rstripPy s) = true := by
  obtain ⟨hdec, _⟩ := rstrip_decomp s
  exact nlr_append_left _ _ (by rw [← hdec]; exact h)

lemma nlr_strip (s : List Char) (h : nlr s = true) : nlr (stripPy s) = true :=
  nlr_dropWhile pyWs _ (nlr_rstrip s h)

lemma rtrB_replicate_nl : ∀ k, rtrB (List.replicate k '\n') = true := by
  intro k
  induction k with
  | zero => rfl
  | succ k ih =>
    rw [List.replicate_succ]
    exact rtrB_cons_of '\n' _ ih (Or.inr (Or.inl rfl))

lemma rtrB_replicate_prepend : ∀ (k : Nat) (X : List Char), rtrB X = true →
    rtrB (List.replicate k '\n' ++ X) = true := by
  intro k
  induction k with
  | zero => intro X h; exact h
  | succ k ih =>
    intro X h
    rw [List.replicate_succ, List.cons_append]
    exact rtrB_cons_of '\n' _ (ih X h) (Or.inr (Or.inl rfl))

lemma coll_pres_rtrB_aux : ∀ (s : List Char) (n : Nat), rtrB s = true →
    rtrB (collapseNlAux n s) = true := by
  intro s
  induction s with
  | nil =>
    intro n _
    exact rtrB_replicate_nl (min n 2)
  | cons c cs ih =>
    intro n h
    unfold collapseNlAux
    by_cases hc : c = '\n'
    · rw [if_pos hc]
      exact ih (n + 1) (rtrB_tail h)
    · rw [if_neg hc]
      refine rtrB_replicate_prepend (min n 2) _ ?_
      refine rtrB_cons_of c _ (ih 0 (rtrB_tail h)) ?_
      by_cases hws : pyWs c = true
      · have hnn : nlNext cs = false := rtrB_bad h hws hc
        cases cs with
        | nil => cases hnn
        | cons d ds =>
          have hd : d ≠ '\n' := by
            intro hdq
            unfold nlNext at hnn
            rw [hdq] at hnn
            simp at hnn
          rw [collAux_zero_head d ds hd]
          exact Or.inr (Or.inr (by unfold nlNext; simp [hd]))
      · exact Or.inl (Bool.eq_false_iff.mpr hws)

lemma coll_pres_rtrB (s : List Char) (h : rtrB s = true) :
    rtrB (collapseNl s) = true :=
  coll_pres_rtrB_aux s 0 h

lemma rtrB_dropWhile (s : List Char) (h : rtrB s = true) :
    rtrB (s.dropWhile pyWs) = true := by
  induction s with
  | nil => exact h
  | cons c cs ih =>
    by_cases hc : pyWs c = true
    · rw [List.dropWhile_cons_of_pos hc]
      exact ih (rtrB_tail h)
    · rw [List.dropWhile_cons_of_neg hc]
      exact h

lemma rtrB_append_left_strip : ∀ (a b : List Char), rtrB (a ++ b) = true →
    LastOk a → rtrB a = true := by
  intro a
  induction a with
  | nil => intro b _ _; rfl
  | cons c a' ih =>
    intro b h hlast
    have htail : rtrB a' = true := by
      refine ih b (rtrB_tail h) ?_
      intro e he
      cases a' with
      | nil => cases he
      | cons d a'' => exact hlast e (by rw [List.getLast?_cons_cons]; exact he)
    refine rtrB_cons_of c a' htail ?_
    cases a' with
    | nil => exact Or.inl (hlast c rfl)
    | cons d a'' =>
      by_cases hd : d = '\n'
      · by_cases hws : pyWs c = true
        · by_cases hcn : c = '\n'
          · exact Or.inr (Or.inl hcn)
          · have h2 := rtrB_bad h hws hcn
            have h3 : decide (d = '\n') = false := h2
            rw [hd] at h3
            simp at h3
        · exact Or.inl (Bool.eq_false_iff.mpr hws)
      · exact Or.inr (Or.inr (by unfold nlNext; simp [hd]))

lemma strip_pres_rtrB (s : List Char) (h : rtrB s = true) :
    rtrB (stripPy s) = true := by
  unfold stripPy lstripPy
  refine rtrB_dropWhile _ ?_
  obtain ⟨hdec, _⟩ := rstrip_decomp s
  exact rtrB_append_left_strip _ _ (by rw [← hdec]; exact h) (lastOk_rstrip s)

/-- C3: the postprocessing step of `get_markdown` — right-trim every line,
collapse runs of three or more newlines to exactly two, then strip the whole
result — is idempotent: applying it twice equals applying it once, for every
string. -/
theorem postprocess_idempotent (s : List Char) :
    postprocess (postprocess s) = postprocess s := by
  unfold postprocess
  have hrt : rtrB (stripPy (collapseNl (rtrimLines s))) = true :=
    strip_pres_rtrB _ (coll_pres_rtrB _ (rtrB_rtrim s))
  have hnl : nlr (stripPy (collapseNl (rtrimLines s))) = true :=
    nlr_strip _ (coll_sound (rtrimLines s) 0)
  rw [rtrim_fix _ hrt, coll_fix _ hnl, strip_idem]

/-! ### The preprocessor: `re.sub` driver and the substitution patterns -/

/-- One `re.sub` pass with a fixed replacement: scan left to right, at each
position try the anchored matcher; on a positive-length match emit the
replacement and continue after the consumed span, otherwise copy one
character.  The fuel (always the subject's length) only bounds the recursion:
every step consumes at least one character. -/
def subAll (m : Matcher) (r : List Char) : Nat → List Char → List Char
  | _, [] => []
  | 0, s => s
  | fuel + 1, c :: cs =>
    match m (c :: cs) with
    | some (k + 1) => r ++ subAll m r fuel ((c :: cs).drop (k + 1))
    | _ => c :: subAll m r fuel cs

/-- `re.sub(pattern, replacement, s)` for the patterns of this source (none of
which can match the empty string). -/
def subApply (m : Matcher) (r : List Char) (s : List Char) : List Char :=
  subAll m r s.length s

/-- `re.search(pattern, s) is not None`. -/
def hasMatch (m : Matcher) (s : List Char) : Bool := (reSearch m s).isSome

/-- Right-nested sequencing of a list of matchers. -/
def mSeqs : List Matcher → Matcher
  | [] => fun _ => some 0
  | [m] => m
  | m :: m2 :: ms => mSeq m (mSeqs (m2 :: ms))

/-- `\s*`. -/
def mWsStar : Matcher := mStar pyWs

/-- `\s+`. -/
def mWsPlus : Matcher := mPlus pyWs

/-- `[^>]*`. -/
def mNoGtStar : Matcher := mStar (fun c => !(c = '>'))

/-- `\d{3}`. -/
def mD3 : Matcher := mRep isDigitB 3

/-- `[A-Z]`. -/
def isUpperB (c : Char) : Bool := 'A' ≤ c && c ≤ 'Z'

/-- `[a-zA-Z0-9]`. -/
def isAlnumB (c : Char) : Bool :=
  ('a' ≤ c && c ≤ 'z') || ('A' ≤ c && c ≤ 'Z') || c.isDigit

/-- `[a-zA-Z]`. -/
def isLetterB (c : Char) : Bool := ('a' ≤ c && c ≤ 'z') || ('A' ≤ c && c ≤ 'Z')

/-- The lookahead `(?=.*\d)` without `re.DOTALL`: a digit occurs later on the
current line (a zero-width assertion, hence zero consumed characters). -/
def mLookDigit : Matcher := fun s =>
  if (s.takeWhile (fun c => !(c = '\n'))).any isDigitB then some 0 else none

/-- `.*?X` under `re.DOTALL`: skip the minimal number of characters after
which `X` matches (non-greedy dot-star). -/
def mUntilAux (m2 : Matcher) : List Char → Option Nat
  | [] =>
    match m2 [] with
    | some k => some k
    | none => none
  | c :: cs =>
    match m2 (c :: cs) with
    | some k => some k
    | none =>
      match mUntilAux m2 cs with
      | some j => some (j + 1)
      | none => none

/-- Rule 1 pattern: `<p[^>]*>\s*&nbsp;\s*</p>` (IGNORECASE). -/
def mNbspP : Matcher :=
  mSeq (mChar '<')
    (mSeqs [mLitCI (("p").toList), mNoGtStar, mChar '>', mWsStar, mChar '&',
      mLitCI (("nbsp").toList), mChar ';', mWsStar, mChar '<', mChar '/',
      mLitCI (("p").toList), mChar '>'])

/-- Rule 2 pattern:
`<p[^>]*>\s*<strong>\s*Join on your computer.*?</strong>\s*</p>`
(DOTALL, IGNORECASE). -/
def mJoinBlock : Matcher :=
  mSeq (mChar '<')
    (mSeqs [mLitCI (("p").toList), mNoGtStar, mChar '>', mWsStar, mChar '<',
      mLitCI (("strong").toList), mChar '>', mWsStar,
      mLitCI (("join on your computer").toList),
      mUntilAux (mSeqs [mChar '<', mChar '/', mLitCI (("strong").toList), mChar '>',
        mWsStar, mChar '<', mChar '/', mLitCI (("p").toList), mChar '>'])])

/-- Rule 3 digit pattern: `>\s*(\d{3}\s+\d{3}\s+\d{3}\s+\d{3})\s*<`. -/
def mMeetingDigits : Matcher :=
  mSeq (mSeqs [mChar '>', mWsStar, mD3, mWsPlus, mD3, mWsPlus, mD3, mWsPlus, mD3, mWsStar])
    (mChar '<')

/-- Rule 4 token pattern: `>\s*([A-Z](?=.*\d)[a-zA-Z0-9]{7})\s*<`
(MULTILINE, case-sensitive). -/
def mPasscodeTok : Matcher :=
  mSeq (mSeqs [mChar '>', mWsStar, mClass isUpperB, mLookDigit, mRep isAlnumB 7, mWsStar])
    (mChar '<')

/-- Rule 5 digit pattern: `>\s*(\d{3}\s+\d{3}\s+\d{3}#)\s*<`. -/
def mPhoneDigits : Matcher :=
  mSeq (mSeqs [mChar '>', mWsStar, mD3, mWsPlus, mD3, mWsPlus, mD3, mChar '#', mWsStar])
    (mChar '<')

/-- Rule 6 identifier pattern: `\d+@t\.plcm\.vc` (IGNORECASE). -/
def mTenantMail : Matcher :=
  mSeqs [mPlus isDigitB, mChar '@', mLitCI (("t").toList), mChar '.',
    mLitCI (("plcm").toList), mChar '.', mLitCI (("vc").toList)]

/-- Rule 7 digit pattern: `>\s*(\d{3}\s+\d{3}\s+\d{3}\s+\d)\s*<`. -/
def mVideoDigits : Matcher :=
  mSeq (mSeqs [mChar '>', mWsStar, mD3, mWsPlus, mD3, mWsPlus, mD3, mWsPlus,
    mClass isDigitB, mWsStar])
    (mChar '<')

/-- Rule 8 pattern: `<div[^>]*>\s*<a[^>]*>Download Teams</a>.*?</div>`
(DOTALL, IGNORECASE). -/
def mDownloadBlock : Matcher :=
  mSeq (mChar '<')
    (mSeqs [mLitCI (("div").toList), mNoGtStar, mChar '>', mWsStar, mChar '<',
      mLitCI (("a").toList), mNoGtStar, mChar '>', mLitCI (("download teams").toList),
      mChar '<', mChar '/', mLitCI (("a").toList), mChar '>',
      mUntilAux (mSeqs [mChar '<', mChar '/', mLitCI (("div").toList), mChar '>'])])

/-- The eight preprocessor rules of the spec, each as its ordered list of
`re.sub` calls (pattern, replacement) exactly as in `preprocess_teams_html`:
empty-nbsp paragraphs; the join-instructions block; Meeting ID label then
digits; Passcode label then token; Phone Conference ID label then digits;
Tenant key label then provider e-mail; Video ID label then digits; the
Download Teams block. -/
def ruleSubs : Fin 8 → List (Matcher × List Char)
  | 0 => [(mNbspP, [])]
  | 1 => [(mJoinBlock, ("<p><strong>Microsoft Teams meeting</strong></p>").toList)]
  | 2 => [(mLitCI (("meeting id:").toList), []), (mMeetingDigits, ("><").toList)]
  | 3 => [(mLitCI (("passcode:").toList), []), (mPasscodeTok, ("><").toList)]
  | 4 => [(mLitCI (("phone conference id:").toList), []), (mPhoneDigits, ("><").toList)]
  | 5 => [(mLitCI (("tenant key:").toList), []), (mTenantMail, [])]
  | 6 => [(mLitCI (("video id:").toList), []), (mVideoDigits, ("><").toList)]
  | 7 => [(mDownloadBlock, [])]

/-- Apply the substitutions of one rule in order. -/
def applySubs (ps : List (Matcher × List Char)) (s : List Char) : List Char :=
  ps.foldl (fun s p => subApply p.1 p.2 s) s

/-- One of the eight spec rules as a string transformation. -/
def preRule (i : Fin 8) (s : List Char) : List Char := applySubs (ruleSubs i) s

/-- `preprocess_teams_html`: the thirteen `re.sub` calls in source order,
grouped into the spec's eight rules. -/
def preprocess_teams_html (html : List Char) : List Char :=
  preRule 7 (preRule 6 (preRule 5 (preRule 4 (preRule 3 (preRule 2
    (preRule 1 (preRule 0 html)))))))

/-! ### The tokenizer: a minimal tag-open/tag-close/text event source
mirroring `html.parser` on markup without character references, including the
CDATA mode of `script`/`style` content. -/

/-- Characters allowed in a tag name after the initial letter
(`html.parser`'s tolerant tag-name set). -/
def tagNameChar (c : Char) : Bool :=
  !(c = '\t' || c = '\n' || c = '\r' || c = '\x0c' || c = ' ' || c = '/' || c = '>')

/-- Characters allowed in an attribute name. -/
def attrNameChar (c : Char) : Bool :=
  !(pyWs c || c = '=' || c = '/' || c = '>')

/-- Lowercase a name, as `html.parser` does for tag and attribute names. -/
def lowerStr (l : List Char) : String := String.mk (l.map Char.toLower)

/-- Parse the attribute section of a start tag up to the closing `>`;
returns the attributes, the remaining input, and the self-closing flag. -/
def parseAttrsAux : Nat → List Char → List (String × Option (List Char)) →
    (List (String × Option (List Char)) × List Char × Bool)
  | 0, s, acc => (acc.reverse, s, false)
  | fuel + 1, s, acc =>
    match s.dropWhile pyWs with
    | [] => (acc.reverse, [], false)
    | c :: cs =>
      if c = '>' then (acc.reverse, cs, false)
      else if c = '/' then
        match cs with
        | '>' :: rest2 => (acc.reverse, rest2, true)
        | _ => parseAttrsAux fuel cs acc
      else
        let nm := (c :: cs).takeWhile attrNameChar
        if nm = [] then parseAttrsAux fuel cs acc
        else
          let s1 := ((c :: cs).drop nm.length).dropWhile pyWs
          match s1 with
          | '=' :: s2 =>
            match s2.dropWhile pyWs with
            | '"' :: s3 =>
              let v := s3.takeWhile (fun x => !(x = '"'))
              parseAttrsAux fuel (s3.drop (v.length + 1)) ((lowerStr nm, some v) :: acc)
            | '\'' :: s3 =>
              let v := s3.takeWhile (fun x => !(x = '\''))
              parseAttrsAux fuel (s3.drop (v.length + 1)) ((lowerStr nm, some v) :: acc)
            | s3 =>
              let v := s3.takeWhile (fun x => !(pyWs x || x = '>'))
              parseAttrsAux fuel (s3.drop v.length) ((lowerStr nm, some v) :: acc)
          | _ => parseAttrsAux fuel s1 ((lowerStr nm, none) :: acc)

/-- The pattern ending a CDATA (`script`/`style`) region:
`</\s*name` case-insensitively. -/
def cdataClose (nm : List Char) : Matcher :=
  mSeq (mChar '<') (mSeq (mChar '/') (mSeq mWsStar (mLitCI nm)))

/-- The tokenizer loop. -/
def tokenizeAux : Nat → List Char → List HEvent
  | 0, _ => []
  | fuel + 1, s =>
    match s with
    | [] => []
    | c :: cs =>
      if c = '<' then
        match cs with
        | [] => []
        | d :: ds =>
          if d = '/' then
            let r3 := ds.dropWhile pyWs
            let nm := r3.takeWhile tagNameChar
            match (r3.drop nm.length).dropWhile (fun x => !(x = '>')) with
            | '>' :: r5 => HEvent.stop (lowerStr nm) :: tokenizeAux fuel r5
            | _ => []
          else if d = '!' then
            match ds.dropWhile (fun x => !(x = '>')) with
            | '>' :: r4 => tokenizeAux fuel r4
            | _ => []
          else if isLetterB d then
            let nm := (d :: ds).takeWhile tagNameChar
            let parsed := parseAttrsAux cs.length ((d :: ds).drop nm.length) []
            let name := lowerStr nm
            let ev := HEvent.start name parsed.1
            if parsed.2.2 then
              ev :: HEvent.stop name :: tokenizeAux fuel parsed.2.1
            else if name = ("script") ∨ name = ("style") then
              match reSearch (cdataClose nm) parsed.2.1 with
              | some (i, _) =>
                if i = 0 then ev :: tokenizeAux fuel parsed.2.1
                else ev :: HEvent.data (parsed.2.1.take i) :: tokenizeAux fuel (parsed.2.1.drop i)
              | none =>
                if parsed.2.1 = [] then [ev] else [ev, HEvent.data parsed.2.1]
            else ev :: tokenizeAux fuel parsed.2.1
          else HEvent.data ['<'] :: tokenizeAux fuel cs
      else
        let chunk := (c :: cs).takeWhile (fun x => !(x = '<'))
        HEvent.data chunk :: tokenizeAux fuel ((c :: cs).drop chunk.length)

/-- Tokenize a whole document. -/
def tokenize (s : List Char) : List HEvent := tokenizeAux (s.length + 1) s

/-- `html_to_markdown`: empty input short-circuits to the empty string,
otherwise preprocess, feed the events to a fresh converter, postprocess. -/
def html_to_markdown (s : List Char) : List Char :=
  if s = [] then []
  else get_markdown (processEvents (tokenize (preprocess_teams_html s)))

/-- Modelled from the spec: the reference transformation of §8 for HTML-free
plain text — "the input with internal whitespace runs collapsed to single
spaces and leading/trailing whitespace removed", realised as collapsing every
whitespace run to one space and then stripping the ends. -/
def specNormalize (s : List Char) : List Char := stripPy (collapseWs s)

lemma reSearchAux_none (m : Matcher) :
    ∀ (s : List Char) (i : Nat), reSearchAux m s i = none →
      ∀ n, m (s.drop n) = none := by
  intro s
  induction s with
  | nil =>
    intro i h n
    unfold reSearchAux at h
    cases hm : m [] with
    | some k => simp [hm] at h
    | none => rw [List.drop_nil]; exact hm
  | cons c cs ih =>
    intro i h n
    unfold reSearchAux at h
    cases hm : m (c :: cs) with
    | some k => simp [hm] at h
    | none =>
      simp only [hm] at h
      cases n with
      | zero => rw [List.drop_zero]; exact hm
      | succ n' => exact ih (i + 1) h n'

lemma subAll_id (m : Matcher) (r : List Char) :
    ∀ (fuel : Nat) (s : List Char), (∀ n, m (s.drop n) = none) →
      subAll m r fuel s = s := by
  intro fuel
  induction fuel with
  | zero => intro s _; cases s <;> rfl
  | succ fuel ih =>
    intro s h
    cases s with
    | nil => rfl
    | cons c cs =>
      have h0 : m (c :: cs) = none := by
        have := h 0
        rwa [List.drop_zero] at this
      show (match m (c :: cs) with
        | some (k + 1) => r ++ subAll m r fuel ((c :: cs).drop (k + 1))
        | _ => c :: subAll m r fuel cs) = c :: cs
      rw [h0]
      show c :: subAll m r fuel cs = c :: cs
      rw [ih cs (fun n => h (n + 1))]

lemma subApply_id_of_no_search (m : Matcher) (r : List Char) (s : List Char)
    (h : hasMatch m s = false) : subApply m r s = s := by
  have hn : reSearch m s = none := by
    unfold hasMatch at h
    cases hr : reSearch m s with
    | none => rfl
    | some v => rw [hr] at h; cases h
  exact subAll_id m r s.length s (reSearchAux_none m s 0 hn)

/-- C6 (code evaluated at the failing input): the passcode-token rule removes
the token `Abcdefgh` from `<span>Abcdefgh</span>5` although the token
contains no digit — the lookahead `(?=.*\d)` is satisfied by the `5` outside
the token — contradicting the source's own comment "Only match if it
contains at least one digit and one letter". -/
theorem passcode_rule_strips_digitless_token :
    preprocess_teams_html (("<span>Abcdefgh</span>5").toList) =
      (("<span></span>5").toList) ∧
    (("Abcdefgh").toList).all (fun c => !(c.isDigit)) = true := by
  constructor
  · decide
  · decide

/-- C9 counterexample: rule 3 (strip "Meeting ID:" labels then ID digits) is
not idempotent — deleting every occurrence of the label can splice a new
occurrence together, which only a second application removes. -/
theorem meeting_id_rule_not_idempotent :
    preRule 2 (preRule 2 (("MeetMeeting ID:ing ID:").toList)) ≠
      preRule 2 (("MeetMeeting ID:ing ID:").toList) := by
  decide

/-- C9 amended: a rule whose single application leaves no further match of
any of its patterns is fixed by a second application; unconditional
idempotence fails (the label-deleting rules can create new label
occurrences, as the counterexample shows). -/
theorem preprocess_rule_idempotent_of_no_residual_match (i : Fin 8) (x : List Char)
    (h : ∀ p ∈ ruleSubs i, hasMatch p.1 (preRule i x) = false) :
    preRule i (preRule i x) = preRule i x := by
  have happ : ∀ (ps : List (Matcher × List Char)) (y : List Char),
      (∀ p ∈ ps, hasMatch p.1 y = false) → applySubs ps y = y := by
    intro ps
    induction ps with
    | nil => intro y _; rfl
    | cons p ps ih =>
      intro y hy
      show applySubs ps (subApply p.1 p.2 y) = y
      rw [subApply_id_of_no_search p.1 p.2 y (hy p (List.mem_cons_self p ps))]
      exact ih y (fun q hq => hy q (List.mem_cons.mpr (Or.inr hq)))
  exact happ (ruleSubs i) (preRule i x) h

/-- Witness for C9 amended: rule 1 (the empty-nbsp-paragraph rule) on `abc`. -/
theorem preprocess_rule_idempotent_witness :
    preRule 0 (preRule 0 (("abc").toList)) = preRule 0 (("abc").toList) :=
  preprocess_rule_idempotent_of_no_residual_match 0 (("abc").toList) (by decide)

/-- Substring test: does `w` occur contiguously inside `s`? -/
def containsSub (w s : List Char) : Bool := hasMatch (mLitCS w) s

set_option maxRecDepth 4000 in
/-- C5 counterexample: a body with the documented boilerplate, a
`Meeting ID: 123 456 789` line and a join link — the digit-removal pattern
requires four space-separated groups of three digits, so the three-group
sequence `123 456 789` survives into the output. -/
theorem meeting_id_three_groups_survive :
    containsSub (("Join on your computer").toList)
        (("<p><strong>Join on your computer or mobile app</strong></p><p>Meeting ID: 123 456 789</p><p><a href=\"https://teams.microsoft.com/l/meetup-join/abc\">Join</a></p>").toList)
        = true ∧
    containsSub (("Meeting ID: 123 456 789").toList)
        (("<p><strong>Join on your computer or mobile app</strong></p><p>Meeting ID: 123 456 789</p><p><a href=\"https://teams.microsoft.com/l/meetup-join/abc\">Join</a></p>").toList)
        = true ∧
    html_to_markdown
        (("<p><strong>Join on your computer or mobile app</strong></p><p>Meeting ID: 123 456 789</p><p><a href=\"https://teams.microsoft.com/l/meetup-join/abc\">Join</a></p>").toList)
      = (("**Microsoft Teams meeting**\n\n123 456 789\n\n[Join](https://teams.microsoft.com/l/meetup-join/abc)").toList) ∧
    containsSub (("123 456 789").toList)
        (html_to_markdown
          (("<p><strong>Join on your computer or mobile app</strong></p><p>Meeting ID: 123 456 789</p><p><a href=\"https://teams.microsoft.com/l/meetup-join/abc\">Join</a></p>").toList))
        = true := by
  refine ⟨by decide, by decide, by decide, by decide⟩

set_option maxRecDepth 4000 in
/-- C5 amended: with a Meeting ID in the four-group form the digit pattern
actually targets (`123 456 789 012`), the scenario behaves as documented —
the output holds the bolded platform line and the join link, and the ID
digits are gone. -/
theorem meeting_id_scenario_amended :
    html_to_markdown
        (("<p><strong>Join on your computer or mobile app</strong></p><p>Meeting ID: 123 456 789 012</p><p><a href=\"https://teams.microsoft.com/l/meetup-join/abc\">Join</a></p>").toList)
      = (("**Microsoft Teams meeting**\n\n[Join](https://teams.microsoft.com/l/meetup-join/abc)").toList) ∧
    containsSub (("**Microsoft Teams meeting**").toList)
        (html_to_markdown
          (("<p><strong>Join on your computer or mobile app</strong></p><p>Meeting ID: 123 456 789 012</p><p><a href=\"https://teams.microsoft.com/l/meetup-join/abc\">Join</a></p>").toList))
        = true ∧
    containsSub (("](https://teams.microsoft.com/l/meetup-join/abc)").toList)
        (html_to_markdown
          (("<p><strong>Join on your computer or mobile app</strong></p><p>Meeting ID: 123 456 789 012</p><p><a href=\"https://teams.microsoft.com/l/meetup-join/abc\">Join</a></p>").toList))
        = true ∧
    containsSub (("123 456 789 012").toList)
        (html_to_markdown
          (("<p><strong>Join on your computer or mobile app</strong></p><p>Meeting ID: 123 456 789 012</p><p><a href=\"https://teams.microsoft.com/l/meetup-join/abc\">Join</a></p>").toList))
        = false := by
  refine ⟨by decide, by decide, by decide, by decide⟩

/-! ### C4: the full pipeline on HTML-free plain text -/

lemma mSeq_some {m1 m2 : Matcher} {t : List Char} {k : Nat}
    (h : mSeq m1 m2 t = some k) :
    ∃ k1 k2, m1 t = some k1 ∧ m2 (t.drop k1) = some k2 ∧ k = k1 + k2 := by
  unfold mSeq at h
  cases hm1 : m1 t with
  | none => simp [hm1] at h
  | some k1 =>
    simp only [hm1] at h
    cases hm2 : m2 (t.drop k1) with
    | none => simp [hm2] at h
    | some k2 =>
      simp only [hm2, Option.some.injEq] at h
      exact ⟨k1, k2, rfl, hm2, h.symm⟩

lemma mChar_some {a : Char} {t : List Char} {k : Nat} (h : mChar a t = some k) :
    ∃ cs, t = a :: cs := by
  cases t with
  | nil => simp [mChar] at h
  | cons c cs =>
    by_cases hc : c = a
    · exact ⟨cs, by rw [hc]⟩
    · simp [mChar, hc] at h

lemma mem_lt_of_head_match (m2 : Matcher) (t : List Char) (k : Nat)
    (h : mSeq (mChar '<') m2 t = some k) : '<' ∈ t := by
  obtain ⟨k1, k2, h1, _, _⟩ := mSeq_some h
  obtain ⟨cs, rfl⟩ := mChar_some h1
  exact List.mem_cons_self _ _

lemma mem_lt_of_last_match (m1 : Matcher) (t : List Char) (k : Nat)
    (h : mSeq m1 (mChar '<') t = some k) : '<' ∈ t := by
  obtain ⟨k1, k2, _, h2, _⟩ := mSeq_some h
  obtain ⟨cs, hdrop⟩ := mChar_some h2
  exact List.drop_subset k1 t (hdrop ▸ List.mem_cons_self '<' cs)

lemma no_match_of_mem_lt (m : Matcher) (hmem : ∀ t k, m t = some k → '<' ∈ t)
    (s : List Char) (hlt : '<' ∉ s) : ∀ n, m (s.drop n) = none := by
  intro n
  cases hm : m (s.drop n) with
  | none => rfl
  | some k => exact absurd (List.drop_subset n s (hmem _ k hm)) hlt

lemma subApply_id_no (m : Matcher) (r : List Char) (s : List Char)
    (hno : ∀ n, m (s.drop n) = none) : subApply m r s = s :=
  subAll_id m r s.length s hno

/-- Under HTML-free input (no `<`) and absence of all text-level boilerplate
labels and tenant-key identifiers, the preprocessor is the identity. -/
lemma preprocess_id (s : List Char) (hlt : '<' ∉ s)
    (h1 : hasMatch (mLitCI (("meeting id:").toList)) s = false)
    (h2 : hasMatch (mLitCI (("passcode:").toList)) s = false)
    (h3 : hasMatch (mLitCI (("phone conference id:").toList)) s = false)
    (h4 : hasMatch (mLitCI (("tenant key:").toList)) s = false)
    (h5 : hasMatch mTenantMail s = false)
    (h6 : hasMatch (mLitCI (("video id:").toList)) s = false) :
    preprocess_teams_html s = s := by
  have hr0 : preRule 0 s = s :=
    subApply_id_no _ _ _ (no_match_of_mem_lt _ (fun t k => mem_lt_of_head_match _ t k) s hlt)
  have hr1 : preRule 1 s = s :=
    subApply_id_no _ _ _ (no_match_of_mem_lt _ (fun t k => mem_lt_of_head_match _ t k) s hlt)
  have hr2 : preRule 2 s = s := by
    show subApply mMeetingDigits (("><").toList)
      (subApply (mLitCI (("meeting id:").toList)) [] s) = s
    rw [subApply_id_of_no_search _ _ _ h1]
    exact subApply_id_no _ _ _
      (no_match_of_mem_lt _ (fun t k => mem_lt_of_last_match _ t k) s hlt)
  have hr3 : preRule 3 s = s := by
    show subApply mPasscodeTok (("><").toList)
      (subApply (mLitCI (("passcode:").toList)) [] s) = s
    rw [subApply_id_of_no_search _ _ _ h2]
    exact subApply_id_no _ _ _
      (no_match_of_mem_lt _ (fun t k => mem_lt_of_last_match _ t k) s hlt)
  have hr4 : preRule 4 s = s := by
    show subApply mPhoneDigits (("><").toList)
      (subApply (mLitCI (("phone conference id:").toList)) [] s) = s
    rw [subApply_id_of_no_search _ _ _ h3]
    exact subApply_id_no _ _ _
      (no_match_of_mem_lt _ (fun t k => mem_lt_of_last_match _ t k) s hlt)
  have hr5 : preRule 5 s = s := by
    show subApply mTenantMail []
      (subApply (mLitCI (("tenant key:").toList)) [] s) = s
    rw [subApply_id_of_no_search _ _ _ h4]
    exact subApply_id_of_no_search _ _ _ h5
  have hr6 : preRule 6 s = s := by
    show subApply mVideoDigits (("><").toList)
      (subApply (mLitCI (("video id:").toList)) [] s) = s
    rw [subApply_id_of_no_search _ _ _ h6]
    exact subApply_id_no _ _ _
      (no_match_of_mem_lt _ (fun t k => mem_lt_of_last_match _ t k) s hlt)
  have hr7 : preRule 7 s = s :=
    subApply_id_no _ _ _ (no_match_of_mem_lt _ (fun t k => mem_lt_of_head_match _ t k) s hlt)
  show preRule 7 (preRule 6 (preRule 5 (preRule 4 (preRule 3 (preRule 2
    (preRule 1 (preRule 0 s))))))) = s
  rw [hr0, hr1, hr2, hr3, hr4, hr5, hr6, hr7]

lemma tokenizeAux_nil : ∀ fuel, tokenizeAux fuel [] = [] := by
  intro fuel
  cases fuel <;> rfl

lemma takeWhile_all_eq (p : Char → Bool) :
    ∀ l : List Char, (∀ x ∈ l, p x = true) → l.takeWhile p = l := by
  intro l
  induction l with
  | nil => intro _; rfl
  | cons c cs ih =>
    intro h
    rw [List.takeWhile_cons_of_pos (h c (List.mem_cons_self c cs)),
      ih (fun x hx => h x (List.mem_cons.mpr (Or.inr hx)))]

/-- On input containing no `<`, the tokenizer yields a single text event. -/
lemma tokenize_no_tag (s : List Char) (hs : s ≠ []) (hlt : '<' ∉ s) :
    tokenize s = [HEvent.data s] := by
  cases s with
  | nil => exact absurd rfl hs
  | cons c cs =>
    have hc : ¬ (c = '<') := fun h => hlt (h ▸ List.mem_cons_self c cs)
    have hchunk : (c :: cs).takeWhile (fun x => !(x = '<')) = c :: cs :=
      takeWhile_all_eq _ _ (fun x hx => by
        simp only [Bool.not_eq_eq_eq_not, Bool.not_true, decide_eq_false_iff_not]
        exact fun he => hlt (he ▸ hx))
    show tokenizeAux (cs.length + 1 + 1) (c :: cs) = [HEvent.data (c :: cs)]
    simp only [tokenizeAux]
    rw [if_neg hc]
    rw [hchunk, List.drop_length]

lemma collapseWsAux_no_nl : ∀ (b : Bool) (s : List Char), '\n' ∉ collapseWsAux b s := by
  intro b s
  induction s generalizing b with
  | nil => simp [collapseWsAux]
  | cons c cs ih =>
    unfold collapseWsAux
    by_cases hc : pyWs c = true
    · rw [if_pos hc]
      by_cases hb : b = true
      · rw [if_pos hb]; exact ih true
      · rw [if_neg hb]
        intro hmem
        rcases List.mem_cons.mp hmem with he | hm
        · cases he
        · exact ih true hm
    · rw [if_neg hc]
      intro hmem
      rcases List.mem_cons.mp hmem with he | hm
      · rw [← he] at hc
        exact hc (by decide)
      · exact ih false hm

lemma collapseWs_no_nl (s : List Char) : '\n' ∉ collapseWs s :=
  collapseWsAux_no_nl false s

lemma splitNl_single (u : List Char) (h : '\n' ∉ u) : splitNl u = [u] := by
  induction u with
  | nil => rfl
  | cons c cs ih =>
    have hcs := ih (fun hm => h (List.mem_cons.mpr (Or.inr hm)))
    have hc : ¬ (c = '\n') := fun hcq => h (List.mem_cons.mpr (Or.inl hcq.symm))
    simp only [splitNl, hcs]
    rw [if_neg hc]

lemma nlr_of_no_nl (v : List Char) (h : '\n' ∉ v) : nlr v = true := by
  induction v with
  | nil => rfl
  | cons c cs ih =>
    exact nlr_cons_of c cs (fun hc => h (List.mem_cons.mpr (Or.inl hc.symm)))
      (ih (fun hm => h (List.mem_cons.mpr (Or.inr hm))))

/-- Postprocessing a newline-free string is just stripping it. -/
lemma postprocess_no_nl (u : List Char) (h : '\n' ∉ u) :
    postprocess u = stripPy u := by
  unfold postprocess rtrimLines
  rw [splitNl_single u h]
  show stripPy (collapseNl (joinNl [rstripPy u])) = stripPy u
  rw [show joinNl [rstripPy u] = rstripPy u from rfl,
    coll_fix _ (nlr_of_no_nl _ (rstrip_no_nl u h))]
  unfold stripPy
  rw [rstrip_idem]

set_option maxRecDepth 4000 in
/-- C4 counterexample: `"Passcode: ok"` is HTML-free plain text, yet the
pipeline output is `"ok"`, not the whitespace-normalised input — the
preprocessor deletes the `Passcode:` label from plain text too. -/
theorem plain_text_with_label_not_preserved :
    ('<' ∉ (("Passcode: ok").toList)) ∧ ('&' ∉ (("Passcode: ok").toList)) ∧
    html_to_markdown (("Passcode: ok").toList) ≠
      specNormalize (("Passcode: ok").toList) := by
  refine ⟨by decide, by decide, by decide⟩

/-- C4 amended: for HTML-free plain text (no `<`, no `&`) that additionally
contains none of the boilerplate labels ("Meeting ID:", "Passcode:",
"Phone Conference ID:", "Tenant key:", "Video ID:", case-insensitively) and
no tenant-key identifier (`digits@t.plcm.vc`), the full pipeline returns the
input with every whitespace run collapsed to a single space and
leading/trailing whitespace removed; no characters of such text are deleted. -/
theorem html_free_plain_text_pipeline (s : List Char)
    (hlt : '<' ∉ s) (hamp : '&' ∉ s)
    (h1 : hasMatch (mLitCI (("meeting id:").toList)) s = false)
    (h2 : hasMatch (mLitCI (("passcode:").toList)) s = false)
    (h3 : hasMatch (mLitCI (("phone conference id:").toList)) s = false)
    (h4 : hasMatch (mLitCI (("tenant key:").toList)) s = false)
    (h5 : hasMatch mTenantMail s = false)
    (h6 : hasMatch (mLitCI (("video id:").toList)) s = false) :
    html_to_markdown s = specNormalize s := by
  by_cases hs : s = []
  · subst hs; rfl
  · unfold html_to_markdown
    rw [if_neg hs, preprocess_id s hlt h1 h2 h3 h4 h5 h6, tokenize_no_tag s hs hlt]
    show get_markdown (handle_data initState s) = specNormalize s
    have hdata : handle_data initState s =
        { initState with output := [collapseWs s] } := rfl
    rw [hdata]
    show postprocess (({ initState with output := [collapseWs s] } :
      ConvState).output.flatten) = specNormalize s
    rw [show ({ initState with output := [collapseWs s] } :
      ConvState).output.flatten = collapseWs s ++ [] from rfl, List.append_nil]
    exact postprocess_no_nl (collapseWs s) (collapseWs_no_nl s)

/-- Witness for C4 amended at a concrete plain text with internal runs. -/
theorem html_free_plain_text_pipeline_witness :
    html_to_markdown (("  hello   world ").toList) =
      specNormalize (("  hello   world ").toList) :=
  html_free_plain_text_pipeline (("  hello   world ").toList) (by decide) (by decide)
    (by decide) (by decide) (by decide) (by decide) (by decide) (by decide)

end Dayflow
